import Mathlib

/-!
Formal model of the AioStomp benchmark program (bench/bench.py).

Modelling conventions:
- Python floats (timestamps, byte quantities) are modelled as exact rationals.
- Python machine-independent integers are modelled as Lean integers.
- Fallible Python expressions are modelled in the Except monad, with the
  error string naming the Python exception the corresponding expression
  raises (ZeroDivisionError, UnboundLocalError).
-/

deriving instance DecidableEq for Except

namespace AioStompBench

/-- Python division, which raises ZeroDivisionError when the divisor is 0. -/
def pyDiv (a b : ℚ) : Except String ℚ :=
  if b = 0 then .error "ZeroDivisionError" else .ok (a / b)

/-- The remainder loop of message_per_client:
for x in range(r): messages_per_client[x] += 1.
The program only reaches it with r at most the list length. -/
def addOneToFirst : ℕ → List ℤ → List ℤ
  | _, [] => []
  | 0, l => l
  | r + 1, x :: xs => (x + 1) :: addOneToFirst r xs

/-- message_per_client(messages, clients) from bench.py.  Python // and % are
floor division and floor remainder, Int.fdiv and Int.fmod; dividing by
clients == 0 raises ZeroDivisionError.  The list comprehension over
range(clients) yields clients copies of n (none when clients < 0), and the
remainder loop adds one to the first (messages % clients) entries. -/
def message_per_client (messages clients : ℤ) : Except String (List ℤ) :=
  if clients = 0 then .error "ZeroDivisionError"
  else
    let n := Int.fdiv messages clients
    let messages_per_client := List.replicate clients.toNat n
    let remainder := Int.fmod messages clients
    .ok (addOneToFirst remainder.toNat messages_per_client)

/-- The Sample class: one worker's measurement.  msg_bytes is set in the
constructor to messages * msg_length; rate, duration and throughput are
derived properties.  rate and throughput perform a bare division by the
duration, so a zero duration raises ZeroDivisionError. -/
structure Sample where
  messages : ℤ
  msg_length : ℤ
  start : ℚ
  end_ : ℚ
deriving DecidableEq

def Sample.msg_bytes (s : Sample) : ℤ := s.messages * s.msg_length

def Sample.duration (s : Sample) : ℚ := s.end_ - s.start

def Sample.rate (s : Sample) : Except String ℚ :=
  pyDiv (s.messages : ℚ) s.duration

def Sample.throughput (s : Sample) : Except String ℚ :=
  pyDiv (s.msg_bytes : ℚ) s.duration

/-- The SampleGroup class.  It inherits Sample's fields, initialised by
super().__init__(0, 0, 0, 0) (messages = 0, msg_length = 0, msg_bytes = 0,
start = 0, end = 0), and keeps the list of added samples.  Unlike Sample,
its msg_bytes is updated directly by add_sample, so it is a stored field. -/
structure SampleGroup where
  messages : ℤ
  msg_length : ℤ
  msg_bytes : ℤ
  start : ℚ
  end_ : ℚ
  samples : List Sample
deriving DecidableEq

/-- SampleGroup(): the freshly constructed, empty group. -/
def SampleGroup.init : SampleGroup := ⟨0, 0, 0, 0, 0, []⟩

/-- SampleGroup.add_sample: append the sample; on the first sample copy its
bounds; accumulate messages and msg_bytes; then widen start/end. -/
def SampleGroup.add_sample (g : SampleGroup) (s : Sample) : SampleGroup :=
  let samples := g.samples ++ [s]
  let start0 := if samples.length = 1 then s.start else g.start
  let end0 := if samples.length = 1 then s.end_ else g.end_
  let messages := g.messages + s.messages
  let msg_bytes := g.msg_bytes + s.msg_bytes
  let start1 := if s.start < start0 then s.start else start0
  let end1 := if s.end_ > end0 then s.end_ else end0
  ⟨messages, g.msg_length, msg_bytes, start1, end1, samples⟩

/-- Adding a whole list of samples to the fresh group, in list order. -/
def addAll (l : List Sample) : SampleGroup :=
  l.foldl SampleGroup.add_sample SampleGroup.init

/-- SampleGroup.min_rate: the loop starts from an unbound local m, so an
empty group raises UnboundLocalError; each iteration evaluates s.rate. -/
def SampleGroup.min_rate (g : SampleGroup) : Except String ℚ :=
  match g.samples with
  | [] => .error "UnboundLocalError"
  | s0 :: rest => do
    let m0 ← s0.rate
    rest.foldlM (fun m s => do
      let r ← s.rate
      pure (min m r)) m0

/-- SampleGroup.max_rate, symmetric to min_rate. -/
def SampleGroup.max_rate (g : SampleGroup) : Except String ℚ :=
  match g.samples with
  | [] => .error "UnboundLocalError"
  | s0 :: rest => do
    let m0 ← s0.rate
    rest.foldlM (fun m s => do
      let r ← s.rate
      pure (max m r)) m0

/-- SampleGroup.avg_rate: sum of the per-sample rates divided by the number
of samples (an empty group raises ZeroDivisionError at the division). -/
def SampleGroup.avg_rate (g : SampleGroup) : Except String ℚ := do
  let sum ← g.samples.foldlM (fun acc s => do
    let r ← s.rate
    pure (acc + r)) (0 : ℚ)
  pyDiv sum (g.samples.length : ℚ)

/-- The variance computed inside SampleGroup.std_dev: the mean of the
squared deviations of the per-sample rates from avg_rate (division by N,
the number of samples, not N - 1). -/
def SampleGroup.variance (g : SampleGroup) : Except String ℚ := do
  let avg ← g.avg_rate
  let sum ← g.samples.foldlM (fun acc c => do
    let r ← c.rate
    pure (acc + (r - avg) ^ 2)) (0 : ℚ)
  pyDiv sum (g.samples.length : ℚ)

/-- SampleGroup.std_dev: math.sqrt of the variance. -/
noncomputable def SampleGroup.std_dev (g : SampleGroup) : Except String ℝ :=
  g.variance.map (fun v => Real.sqrt (v : ℝ))

/-- The Benchmark class: one SampleGroup per role plus the server string. -/
structure Benchmark where
  subscribe : SampleGroup
  publish : SampleGroup
  server : String

/-- Benchmark.add_sample routes a sample to the group named by its role. -/
def Benchmark.add_sample (b : Benchmark) (sample_type : String) (s : Sample) :
    Benchmark :=
  if sample_type = "subscribe" then
    { b with subscribe := b.subscribe.add_sample s }
  else if sample_type = "publish" then
    { b with publish := b.publish.add_sample s }
  else b

/-- The mutable state of the inner Handler class of run_subscribe: the
message counter, the stored message_size and num_msgs arguments, and the
three fields initialised to None (timeout, start, end).  The client, bench,
loop, waiter-future and task handles carry no measured state and are
represented by the run semantics below. -/
structure Handler where
  counter : ℤ
  message_size : ℤ
  num_msgs : ℤ
  timeout : Option ℚ
  start : Option ℚ
  end_ : Option ℚ
deriving DecidableEq

/-- Handler.__init__: counter 0; timeout, start and end are None. -/
def Handler.init (message_size num_msgs : ℤ) : Handler :=
  ⟨0, message_size, num_msgs, none, none, none⟩

/-- The positional arguments passed to Sample(...) when the DONE transition
fires: Sample(self.counter, self.message_size, self.start, self.end).  The
time fields are optional because Python initialises them to None and, when
only one message was ever received, self.end is still None at finalisation. -/
structure EmittedSample where
  messages : ℤ
  msg_length : ℤ
  start : Option ℚ
  end_ : Option ℚ
deriving DecidableEq

def Handler.emit (h : Handler) : EmittedSample :=
  ⟨h.counter, h.message_size, h.start, h.end_⟩

/-- Handler.handle_message at arrival time now.  The loop.time() and timer()
readings are modelled by the one monotonic clock of the event schedule; the
idle window 0.6 is 3/5.  reset_timeout is inlined: it assigns the new
timeout and sets end to the arrival time. -/
def Handler.handle_message (h : Handler) (now : ℚ) : Handler :=
  let h1 := { h with counter := h.counter + 1 }
  let h2 := if h1.start = none then { h1 with start := some now } else h1
  match h2.timeout with
  | none => { h2 with timeout := some (now + 3 / 5) }
  | some _ => { h2 with timeout := some (now + 3 / 5), end_ := some now }

/-- One deadline check of the poll loop body of Handler.timeout_task at the
given wakeup time: if self.timeout and time >= self.timeout.  Python
truthiness makes both a None timeout and a 0.0 timeout falsy. -/
def Handler.pollFires (h : Handler) (time : ℚ) : Bool :=
  match h.timeout with
  | none => false
  | some t => if t = 0 then false else decide (t ≤ time)

/-- An event observed by one subscriber: a message delivery handled by
handle_message, or one wakeup of the 0.2-spaced poll loop. -/
inductive Event where
  | msg : ℚ → Event
  | poll : ℚ → Event
deriving DecidableEq

def Event.time : Event → ℚ
  | .msg t => t
  | .poll t => t

/-- Run the subscriber over a time-ordered event schedule.  A message event
runs handle_message; a poll event whose deadline check passes is the DONE
transition: the handler finalises Sample(counter, message_size, start, end)
(see Handler.emit), releases the waiter, and wait_complete then cancels the
poll task and closes the connection, so the run stops there.  All other
events leave the state unchanged. -/
def runEvents (h : Handler) : List Event → Handler × Option ℚ
  | [] => (h, none)
  | Event.msg t :: rest => runEvents (h.handle_message t) rest
  | Event.poll t :: rest =>
    if h.pollFires t then (h, some t) else runEvents h rest

/-- The message arrival times of a schedule. -/
def msgsOf (L : List Event) : List ℚ :=
  L.filterMap fun e => match e with | .msg t => some t | .poll _ => none

/-- The poll wakeup times of a schedule. -/
def pollsOf (L : List Event) : List ℚ :=
  L.filterMap fun e => match e with | .poll t => some t | .msg _ => none

/-- Processing only the messages of a schedule (polls that do not fire leave
the handler unchanged). -/
def procMsgs (h : Handler) (ms : List ℚ) : Handler :=
  ms.foldl Handler.handle_message h

/-- The wakeup times of the poll task: one every 0.2 = 1/5 time units. -/
def pollGrid (p0 : ℚ) (K : ℕ) : List ℚ :=
  (List.range K).map fun (k : ℕ) => p0 + (k : ℚ) / 5

/-- Fueled search for the largest exponent e with base ^ e <= n. -/
def intLogAux (base n : ℕ) : ℕ → ℕ → ℕ
  | 0, e => e
  | fuel + 1, e =>
    if base ^ (e + 1) ≤ n then intLogAux base n fuel (e + 1) else e

/-- The selection rule that claim C9 states for human_bytes: the exponent of
the largest unit whose scaled value is at least 1, that is the largest e
with base ^ e <= n (for base >= 2, n >= 1).  This is deliberately not a
model of the program's exp = int(math.log(bytes_) / math.log(float(base))):
that double-precision quotient rounds up to the next integer for inputs just
below a power of the base, so the program diverges from this rule there
(see theorem C9_claimed_unit_at_failing_inputs). -/
def intLog (base n : ℕ) : ℕ := intLogAux base n n 0

theorem addOneToFirst_length (r : ℕ) (l : List ℤ) :
    (addOneToFirst r l).length = l.length := by
  induction l generalizing r with
  | nil => cases r <;> rfl
  | cons x xs ih =>
    cases r with
    | zero => rfl
    | succ r => simpa [addOneToFirst] using ih r

theorem addOneToFirst_sum (r : ℕ) (l : List ℤ) (h : r ≤ l.length) :
    (addOneToFirst r l).sum = l.sum + r := by
  induction l generalizing r with
  | nil =>
    have : r = 0 := Nat.le_zero.mp h
    subst this; rfl
  | cons x xs ih =>
    cases r with
    | zero => simp [addOneToFirst]
    | succ r =>
      have hr : r ≤ xs.length := Nat.succ_le_succ_iff.mp h
      simp [addOneToFirst, ih r hr]
      ring

theorem addOneToFirst_get? (r : ℕ) (l : List ℤ) (i : ℕ) :
    (addOneToFirst r l).get? i =
      (l.get? i).map (fun v => v + if i < r then 1 else 0) := by
  induction l generalizing r i with
  | nil => cases r <;> simp [addOneToFirst]
  | cons x xs ih =>
    cases r with
    | zero => simp [addOneToFirst]
    | succ r =>
      cases i with
      | zero => simp [addOneToFirst]
      | succ i => simpa [addOneToFirst] using ih r i

/-- C1: for every total >= 0 and workers >= 1, message_per_client returns a
list of length workers summing to total, whose i-th element is the floor
quotient plus one exactly when i < total mod workers (so every element is
within 1 of the floor quotient and the first total-mod-workers workers get
the extra unit, in index order); in particular
message_per_client 10 3 = [4, 3, 3]. -/
theorem C1_partition_fair :
    (∀ total workers : ℤ, 0 ≤ total → 1 ≤ workers →
      ∃ l, message_per_client total workers = .ok l ∧
        l.length = workers.toNat ∧
        l.sum = total ∧
        (∀ i : ℕ, l.get? i =
          if i < workers.toNat then
            some (total.fdiv workers +
              (if (i : ℤ) < total.fmod workers then 1 else 0))
          else none) ∧
        (∀ i : ℕ, ∀ v : ℤ, l.get? i = some v →
          total.fdiv workers ≤ v ∧ v ≤ total.fdiv workers + 1)) ∧
    message_per_client 10 3 = .ok [4, 3, 3] := by
  constructor
  · intro total workers htotal hworkers
    have hw0 : workers ≠ 0 := by omega
    have hwpos : 0 < workers := by omega
    have hfmod_nonneg : 0 ≤ total.fmod workers := by
      rw [Int.fmod_eq_emod _ (le_of_lt hwpos)]
      exact Int.emod_nonneg total hw0
    have hfmod_lt : total.fmod workers < workers := by
      rw [Int.fmod_eq_emod _ (le_of_lt hwpos)]
      exact Int.emod_lt_of_pos total hwpos
    have hident : workers * total.fdiv workers + total.fmod workers = total :=
      Int.fdiv_add_fmod total workers
    have hr_le : (total.fmod workers).toNat ≤ workers.toNat := by omega
    refine ⟨addOneToFirst (total.fmod workers).toNat
      (List.replicate workers.toNat (total.fdiv workers)), ?_, ?_, ?_, ?_, ?_⟩
    · simp [message_per_client, hw0]
    · rw [addOneToFirst_length, List.length_replicate]
    · rw [addOneToFirst_sum _ _ (by simpa using hr_le), List.sum_replicate]
      have h1 : (workers.toNat : ℤ) = workers := by omega
      have h2 : ((total.fmod workers).toNat : ℤ) = total.fmod workers := by
        omega
      rw [nsmul_eq_mul, h1, h2]
      linarith [hident]
    · intro i
      rw [addOneToFirst_get?]
      by_cases hi : i < workers.toNat
      · rw [List.get?_eq_get (by simpa using hi), if_pos hi]
        by_cases hlt : (i : ℤ) < total.fmod workers
        · simp [hlt, show i < (total.fmod workers).toNat from by omega]
        · simp [hlt, show ¬ i < (total.fmod workers).toNat from by omega]
      · rw [if_neg hi, List.get?_eq_none.mpr (by simpa using Nat.le_of_not_lt hi)]
        rfl
    · intro i v hv
      rw [addOneToFirst_get?] at hv
      by_cases hi : i < workers.toNat
      · rw [List.get?_eq_get (by simpa using hi)] at hv
        by_cases hlt : i < (total.fmod workers).toNat
        · simp [hlt] at hv; omega
        · simp [hlt] at hv; omega
      · rw [List.get?_eq_none.mpr (by simpa using Nat.le_of_not_lt hi)] at hv
        simp at hv
  · decide

/-- C1 witness: the universal part of C1 evaluated at total 10, workers 3. -/
theorem C1_partition_fair_witness :
    ∃ l, message_per_client 10 3 = .ok l ∧
      l.length = (3 : ℤ).toNat ∧
      l.sum = 10 ∧
      (∀ i : ℕ, l.get? i =
        if i < (3 : ℤ).toNat then
          some ((10 : ℤ).fdiv 3 +
            (if (i : ℤ) < (10 : ℤ).fmod 3 then 1 else 0))
        else none) ∧
      (∀ i : ℕ, ∀ v : ℤ, l.get? i = some v →
        (10 : ℤ).fdiv 3 ≤ v ∧ v ≤ (10 : ℤ).fdiv 3 + 1) :=
  C1_partition_fair.1 10 3 (by decide) (by decide)

/-- C3 counterexample: message_per_client(10, 0) does not return the empty
list; the very first statement, 10 // 0, raises ZeroDivisionError. -/
theorem C3_partition_zero_workers_cex :
    message_per_client 10 0 ≠ .ok ([] : List ℤ) := by
  decide

/-- C3 amended: for every total, partitioning over zero workers raises
ZeroDivisionError (the caller in run_benchmark only calls message_per_client
when the publisher count is nonzero). -/
theorem C3_partition_zero_workers_raises (total : ℤ) :
    message_per_client total 0 = .error "ZeroDivisionError" := by
  simp [message_per_client]

theorem add_sample_samples (g : SampleGroup) (s : Sample) :
    (g.add_sample s).samples = g.samples ++ [s] := rfl

theorem add_sample_messages (g : SampleGroup) (s : Sample) :
    (g.add_sample s).messages = g.messages + s.messages := rfl

theorem add_sample_msg_bytes (g : SampleGroup) (s : Sample) :
    (g.add_sample s).msg_bytes = g.msg_bytes + s.msg_bytes := rfl

theorem add_sample_empty_start (g : SampleGroup) (s : Sample)
    (h : g.samples = []) : (g.add_sample s).start = s.start := by
  simp [SampleGroup.add_sample, h]

theorem add_sample_empty_end (g : SampleGroup) (s : Sample)
    (h : g.samples = []) : (g.add_sample s).end_ = s.end_ := by
  simp [SampleGroup.add_sample, h]

theorem add_sample_ne_start (g : SampleGroup) (s : Sample)
    (h : g.samples ≠ []) : (g.add_sample s).start = min s.start g.start := by
  have hlen : ¬ (g.samples ++ [s]).length = 1 := by
    rcases hsam : g.samples with _ | ⟨a, l⟩
    · exact absurd hsam h
    · simp
  simp only [SampleGroup.add_sample, if_neg hlen]
  split_ifs with h1
  · exact (min_eq_left (le_of_lt h1)).symm
  · exact (min_eq_right (le_of_not_lt h1)).symm

theorem add_sample_ne_end (g : SampleGroup) (s : Sample)
    (h : g.samples ≠ []) : (g.add_sample s).end_ = max s.end_ g.end_ := by
  have hlen : ¬ (g.samples ++ [s]).length = 1 := by
    rcases hsam : g.samples with _ | ⟨a, l⟩
    · exact absurd hsam h
    · simp
  simp only [SampleGroup.add_sample, if_neg hlen]
  split_ifs with h1
  · exact (max_eq_left (le_of_lt h1)).symm
  · exact (max_eq_right (le_of_not_lt h1)).symm

theorem foldl_add_messages (l : List Sample) :
    ∀ g : SampleGroup, (l.foldl SampleGroup.add_sample g).messages =
      g.messages + (l.map Sample.messages).sum := by
  induction l with
  | nil => intro g; simp
  | cons s rest ih =>
    intro g
    simp [ih, add_sample_messages]
    ring

theorem foldl_add_msg_bytes (l : List Sample) :
    ∀ g : SampleGroup, (l.foldl SampleGroup.add_sample g).msg_bytes =
      g.msg_bytes + (l.map Sample.msg_bytes).sum := by
  induction l with
  | nil => intro g; simp
  | cons s rest ih =>
    intro g
    simp [ih, add_sample_msg_bytes]
    ring

theorem foldl_add_samples (l : List Sample) :
    ∀ g : SampleGroup, (l.foldl SampleGroup.add_sample g).samples =
      g.samples ++ l := by
  induction l with
  | nil => intro g; simp
  | cons s rest ih => intro g; simp [ih, add_sample_samples]

theorem foldl_add_start_spec (l : List Sample) :
    ∀ g : SampleGroup, g.samples ≠ [] →
      (l.foldl SampleGroup.add_sample g).start ∈
          g.start :: l.map Sample.start ∧
        ∀ x ∈ g.start :: l.map Sample.start,
          (l.foldl SampleGroup.add_sample g).start ≤ x := by
  induction l with
  | nil =>
    intro g hg
    refine ⟨List.mem_cons_self _ _, ?_⟩
    intro x hx
    simp only [List.map_nil, List.mem_singleton] at hx
    subst hx
    simp
  | cons s rest ih =>
    intro g hg
    have hne : (g.add_sample s).samples ≠ [] := by
      simp [add_sample_samples]
    have hmin := add_sample_ne_start g s hg
    obtain ⟨hmem, hle⟩ := ih (g.add_sample s) hne
    rw [List.foldl_cons]
    constructor
    · rcases List.mem_cons.mp hmem with h1 | h1
      · rcases le_total s.start g.start with hc | hc
        · have h2 : (rest.foldl SampleGroup.add_sample (g.add_sample s)).start
              = s.start := by rw [h1, hmin, min_eq_left hc]
          simp [h2]
        · have h2 : (rest.foldl SampleGroup.add_sample (g.add_sample s)).start
              = g.start := by rw [h1, hmin, min_eq_right hc]
          simp [h2]
      · simp only [List.map_cons, List.mem_cons] at h1 ⊢
        tauto
    · intro x hx
      simp only [List.map_cons, List.mem_cons] at hx
      have hhead : (rest.foldl SampleGroup.add_sample (g.add_sample s)).start ≤
          min s.start g.start := by
        rw [← hmin]
        exact hle _ (List.mem_cons_self _ _)
      rcases hx with rfl | rfl | hx
      · exact le_trans hhead (min_le_right _ _)
      · exact le_trans hhead (min_le_left _ _)
      · exact hle x (List.mem_cons_of_mem _ hx)

theorem foldl_add_end_spec (l : List Sample) :
    ∀ g : SampleGroup, g.samples ≠ [] →
      (l.foldl SampleGroup.add_sample g).end_ ∈
          g.end_ :: l.map Sample.end_ ∧
        ∀ x ∈ g.end_ :: l.map Sample.end_,
          x ≤ (l.foldl SampleGroup.add_sample g).end_ := by
  induction l with
  | nil =>
    intro g hg
    refine ⟨List.mem_cons_self _ _, ?_⟩
    intro x hx
    simp only [List.map_nil, List.mem_singleton] at hx
    subst hx
    simp
  | cons s rest ih =>
    intro g hg
    have hne : (g.add_sample s).samples ≠ [] := by
      simp [add_sample_samples]
    have hmax := add_sample_ne_end g s hg
    obtain ⟨hmem, hle⟩ := ih (g.add_sample s) hne
    rw [List.foldl_cons]
    constructor
    · rcases List.mem_cons.mp hmem with h1 | h1
      · rcases le_total s.end_ g.end_ with hc | hc
        · have h2 : (rest.foldl SampleGroup.add_sample (g.add_sample s)).end_
              = g.end_ := by rw [h1, hmax, max_eq_right hc]
          simp [h2]
        · have h2 : (rest.foldl SampleGroup.add_sample (g.add_sample s)).end_
              = s.end_ := by rw [h1, hmax, max_eq_left hc]
          simp [h2]
      · simp only [List.map_cons, List.mem_cons] at h1 ⊢
        tauto
    · intro x hx
      simp only [List.map_cons, List.mem_cons] at hx
      have hhead : max s.end_ g.end_ ≤
          (rest.foldl SampleGroup.add_sample (g.add_sample s)).end_ := by
        rw [← hmax]
        exact hle _ (List.mem_cons_self _ _)
      rcases hx with rfl | rfl | hx
      · exact le_trans (le_max_right _ _) hhead
      · exact le_trans (le_max_left _ _) hhead
      · exact hle x (List.mem_cons_of_mem _ hx)

theorem addAll_start_min (s : Sample) (rest : List Sample) :
    (addAll (s :: rest)).start ∈ (s :: rest).map Sample.start ∧
      ∀ x ∈ (s :: rest).map Sample.start, (addAll (s :: rest)).start ≤ x := by
  have h0 : (SampleGroup.init.add_sample s).samples ≠ [] := by
    simp [add_sample_samples, SampleGroup.init]
  have hstart : (SampleGroup.init.add_sample s).start = s.start :=
    add_sample_empty_start _ _ rfl
  obtain ⟨hmem, hle⟩ := foldl_add_start_spec rest (SampleGroup.init.add_sample s) h0
  rw [hstart] at hmem hle
  exact ⟨by simpa using hmem, by simpa using hle⟩

theorem addAll_end_max (s : Sample) (rest : List Sample) :
    (addAll (s :: rest)).end_ ∈ (s :: rest).map Sample.end_ ∧
      ∀ x ∈ (s :: rest).map Sample.end_, x ≤ (addAll (s :: rest)).end_ := by
  have h0 : (SampleGroup.init.add_sample s).samples ≠ [] := by
    simp [add_sample_samples, SampleGroup.init]
  have hend : (SampleGroup.init.add_sample s).end_ = s.end_ :=
    add_sample_empty_end _ _ rfl
  obtain ⟨hmem, hle⟩ := foldl_add_end_spec rest (SampleGroup.init.add_sample s) h0
  rw [hend] at hmem hle
  exact ⟨by simpa using hmem, by simpa using hle⟩

/-- C2: evidence for the code bug.  The code of Sample.rate and
Sample.throughput performs the division by the duration with no guard, so on
a Sample whose end equals its start (duration 0) both evaluations raise
ZeroDivisionError instead of the special-casing the spec requires. -/
theorem C2_rate_unguarded_zero_duration :
    Sample.rate ⟨7, 128, 5/2, 5/2⟩ = .error "ZeroDivisionError" ∧
    Sample.throughput ⟨7, 128, 5/2, 5/2⟩ = .error "ZeroDivisionError" := by
  constructor <;>
    norm_num [Sample.rate, Sample.throughput, Sample.duration, Sample.msg_bytes,
      pyDiv]

/-- C6: adding a sample to a group with no samples yet initialises the
group's bounds to that sample's bounds, and adding to a group that already
holds samples can only widen the interval, never narrow it. -/
theorem C6_interval_widening (g : SampleGroup) (s : Sample) :
    (g.samples = [] →
      (g.add_sample s).start = s.start ∧ (g.add_sample s).end_ = s.end_) ∧
    (g.samples ≠ [] →
      (g.add_sample s).start ≤ g.start ∧ g.end_ ≤ (g.add_sample s).end_) := by
  constructor
  · intro h
    simp [SampleGroup.add_sample, h]
  · intro h
    have hlen : ¬ (g.samples ++ [s]).length = 1 := by
      rcases hsam : g.samples with _ | ⟨a, l⟩
      · exact absurd hsam h
      · simp
    simp only [SampleGroup.add_sample, if_neg hlen]
    constructor
    · split_ifs with h1
      · linarith
      · exact le_rfl
    · split_ifs with h1
      · linarith
      · exact le_rfl

/-- C6 witness: both parts of C6 at concrete samples. -/
theorem C6_interval_widening_witness :
    ((SampleGroup.init.add_sample ⟨1, 2, 3, 4⟩).start = 3 ∧
      (SampleGroup.init.add_sample ⟨1, 2, 3, 4⟩).end_ = 4) ∧
    ((SampleGroup.init.add_sample ⟨1, 2, 3, 4⟩).add_sample ⟨1, 2, 5, 6⟩).start ≤
        (SampleGroup.init.add_sample ⟨1, 2, 3, 4⟩).start ∧
      (SampleGroup.init.add_sample ⟨1, 2, 3, 4⟩).end_ ≤
        ((SampleGroup.init.add_sample ⟨1, 2, 3, 4⟩).add_sample ⟨1, 2, 5, 6⟩).end_ :=
  ⟨(C6_interval_widening SampleGroup.init ⟨1, 2, 3, 4⟩).1 rfl,
    (C6_interval_widening (SampleGroup.init.add_sample ⟨1, 2, 3, 4⟩)
      ⟨1, 2, 5, 6⟩).2 (by decide)⟩

/-- C5: adding a multiset of samples to a fresh SampleGroup via add_sample in
any order yields the same total messages, total msg_bytes, group start and
group end; moreover on a nonempty list the group start is the minimum sample
start and the group end is the maximum sample end. -/
theorem C5_add_sample_order_independent (l1 l2 : List Sample)
    (h : l1.Perm l2) :
    (addAll l1).messages = (addAll l2).messages ∧
    (addAll l1).msg_bytes = (addAll l2).msg_bytes ∧
    (addAll l1).start = (addAll l2).start ∧
    (addAll l1).end_ = (addAll l2).end_ ∧
    (l1 ≠ [] →
      ((addAll l1).start ∈ l1.map Sample.start ∧
        ∀ s ∈ l1, (addAll l1).start ≤ s.start) ∧
      ((addAll l1).end_ ∈ l1.map Sample.end_ ∧
        ∀ s ∈ l1, s.end_ ≤ (addAll l1).end_)) := by
  refine ⟨?_, ?_, ?_, ?_, ?_⟩
  · rw [addAll, addAll, foldl_add_messages, foldl_add_messages]
    exact congrArg _ ((h.map Sample.messages).sum_eq)
  · rw [addAll, addAll, foldl_add_msg_bytes, foldl_add_msg_bytes]
    exact congrArg _ ((h.map Sample.msg_bytes).sum_eq)
  · rcases l1 with _ | ⟨s1, r1⟩
    · have h2 : l2 = [] := (h.symm).eq_nil
      rw [h2]
    · rcases l2 with _ | ⟨s2, r2⟩
      · exact absurd h.eq_nil (by simp)
      · have hm : List.Perm ((s1 :: r1).map Sample.start)
            ((s2 :: r2).map Sample.start) := h.map Sample.start
        obtain ⟨am, al⟩ := addAll_start_min s1 r1
        obtain ⟨bm, bl⟩ := addAll_start_min s2 r2
        exact le_antisymm (al _ (hm.symm.subset bm)) (bl _ (hm.subset am))
  · rcases l1 with _ | ⟨s1, r1⟩
    · have h2 : l2 = [] := (h.symm).eq_nil
      rw [h2]
    · rcases l2 with _ | ⟨s2, r2⟩
      · exact absurd h.eq_nil (by simp)
      · have hm : List.Perm ((s1 :: r1).map Sample.end_)
            ((s2 :: r2).map Sample.end_) := h.map Sample.end_
        obtain ⟨am, al⟩ := addAll_end_max s1 r1
        obtain ⟨bm, bl⟩ := addAll_end_max s2 r2
        exact le_antisymm (bl _ (hm.subset am)) (al _ (hm.symm.subset bm))
  · intro hne
    rcases l1 with _ | ⟨s1, r1⟩
    · exact absurd rfl hne
    · obtain ⟨am, al⟩ := addAll_start_min s1 r1
      obtain ⟨bm, bl⟩ := addAll_end_max s1 r1
      exact ⟨⟨am, fun s hs => al _ (List.mem_map_of_mem _ hs)⟩,
        ⟨bm, fun s hs => bl _ (List.mem_map_of_mem _ hs)⟩⟩

/-- C5 witness: C5 at the concrete two-element lists [a, b] and [b, a]. -/
theorem C5_add_sample_order_independent_witness :
    (addAll [⟨1, 2, 3, 4⟩, ⟨5, 6, 7, 8⟩]).messages =
        (addAll [⟨5, 6, 7, 8⟩, ⟨1, 2, 3, 4⟩]).messages ∧
    (addAll [⟨1, 2, 3, 4⟩, ⟨5, 6, 7, 8⟩]).msg_bytes =
        (addAll [⟨5, 6, 7, 8⟩, ⟨1, 2, 3, 4⟩]).msg_bytes ∧
    (addAll [⟨1, 2, 3, 4⟩, ⟨5, 6, 7, 8⟩]).start =
        (addAll [⟨5, 6, 7, 8⟩, ⟨1, 2, 3, 4⟩]).start ∧
    (addAll [⟨1, 2, 3, 4⟩, ⟨5, 6, 7, 8⟩]).end_ =
        (addAll [⟨5, 6, 7, 8⟩, ⟨1, 2, 3, 4⟩]).end_ ∧
    (([⟨1, 2, 3, 4⟩, ⟨5, 6, 7, 8⟩] : List Sample) ≠ [] →
      ((addAll [⟨1, 2, 3, 4⟩, ⟨5, 6, 7, 8⟩]).start ∈
          ([⟨1, 2, 3, 4⟩, ⟨5, 6, 7, 8⟩] : List Sample).map Sample.start ∧
        ∀ s ∈ ([⟨1, 2, 3, 4⟩, ⟨5, 6, 7, 8⟩] : List Sample),
          (addAll [⟨1, 2, 3, 4⟩, ⟨5, 6, 7, 8⟩]).start ≤ s.start) ∧
      ((addAll [⟨1, 2, 3, 4⟩, ⟨5, 6, 7, 8⟩]).end_ ∈
          ([⟨1, 2, 3, 4⟩, ⟨5, 6, 7, 8⟩] : List Sample).map Sample.end_ ∧
        ∀ s ∈ ([⟨1, 2, 3, 4⟩, ⟨5, 6, 7, 8⟩] : List Sample),
          s.end_ ≤ (addAll [⟨1, 2, 3, 4⟩, ⟨5, 6, 7, 8⟩]).end_)) :=
  C5_add_sample_order_independent [⟨1, 2, 3, 4⟩, ⟨5, 6, 7, 8⟩]
    [⟨5, 6, 7, 8⟩, ⟨1, 2, 3, 4⟩]
    (List.Perm.swap (⟨5, 6, 7, 8⟩ : Sample) (⟨1, 2, 3, 4⟩ : Sample) [])

/-- C7: std_dev is the population standard deviation of the per-sample rates
(the variance divides by N, the number of samples): a single-sample group
has standard deviation exactly 0, and the group whose sample rates are
10, 20, 30 reports min 10, max 30, mean 20, variance 200/3 and standard
deviation sqrt(200/3), which is within 1/1000 of 8.165. -/
theorem C7_std_dev_population :
    (∀ (g : SampleGroup) (s : Sample) (r : ℚ), g.samples = [s] →
      s.rate = .ok r → g.std_dev = .ok 0) ∧
    ((addAll [⟨10, 1, 0, 1⟩, ⟨20, 1, 0, 1⟩, ⟨30, 1, 0, 1⟩]).min_rate =
        .ok 10 ∧
      (addAll [⟨10, 1, 0, 1⟩, ⟨20, 1, 0, 1⟩, ⟨30, 1, 0, 1⟩]).max_rate =
        .ok 30 ∧
      (addAll [⟨10, 1, 0, 1⟩, ⟨20, 1, 0, 1⟩, ⟨30, 1, 0, 1⟩]).avg_rate =
        .ok 20 ∧
      (addAll [⟨10, 1, 0, 1⟩, ⟨20, 1, 0, 1⟩, ⟨30, 1, 0, 1⟩]).variance =
        .ok (200 / 3) ∧
      (addAll [⟨10, 1, 0, 1⟩, ⟨20, 1, 0, 1⟩, ⟨30, 1, 0, 1⟩]).std_dev =
        .ok (Real.sqrt (200 / 3)) ∧
      |Real.sqrt ((200 : ℝ) / 3) - 8165 / 1000| < 1 / 1000) := by
  have hsam : (addAll [⟨10, 1, 0, 1⟩, ⟨20, 1, 0, 1⟩, ⟨30, 1, 0, 1⟩]).samples =
      [⟨10, 1, 0, 1⟩, ⟨20, 1, 0, 1⟩, ⟨30, 1, 0, 1⟩] := by
    rw [addAll, foldl_add_samples]
    rfl
  constructor
  · intro g s r hs hr
    simp [SampleGroup.std_dev, SampleGroup.variance, SampleGroup.avg_rate,
      hs, hr, pyDiv, Bind.bind, Except.bind, Except.map, Pure.pure, Except.pure]
  · have hr1 : Sample.rate ⟨10, 1, 0, 1⟩ = .ok 10 := by
      norm_num [Sample.rate, Sample.duration, pyDiv]
    have hr2 : Sample.rate ⟨20, 1, 0, 1⟩ = .ok 20 := by
      norm_num [Sample.rate, Sample.duration, pyDiv]
    have hr3 : Sample.rate ⟨30, 1, 0, 1⟩ = .ok 30 := by
      norm_num [Sample.rate, Sample.duration, pyDiv]
    have havg : (addAll [⟨10, 1, 0, 1⟩, ⟨20, 1, 0, 1⟩, ⟨30, 1, 0, 1⟩]).avg_rate
        = .ok 20 := by
      rw [SampleGroup.avg_rate, hsam]
      norm_num [hr1, hr2, hr3, pyDiv, Bind.bind, Except.bind, Pure.pure, Except.pure]
    have hvar : (addAll [⟨10, 1, 0, 1⟩, ⟨20, 1, 0, 1⟩, ⟨30, 1, 0, 1⟩]).variance
        = .ok (200 / 3) := by
      rw [SampleGroup.variance, havg, hsam]
      norm_num [hr1, hr2, hr3, pyDiv, Bind.bind, Except.bind, Pure.pure, Except.pure]
    have hlow : (8164 : ℝ) / 1000 < Real.sqrt (200 / 3) := by
      rw [show ((8164 : ℝ) / 1000) = Real.sqrt ((8164 / 1000) ^ 2) from
        (Real.sqrt_sq (by norm_num)).symm]
      exact Real.sqrt_lt_sqrt (by norm_num) (by norm_num)
    have hhigh : Real.sqrt ((200 : ℝ) / 3) < 8165 / 1000 := by
      rw [show ((8165 : ℝ) / 1000) = Real.sqrt ((8165 / 1000) ^ 2) from
        (Real.sqrt_sq (by norm_num)).symm]
      exact Real.sqrt_lt_sqrt (by norm_num) (by norm_num)
    refine ⟨?_, ?_, havg, hvar, ?_, ?_⟩
    · rw [SampleGroup.min_rate, hsam]
      norm_num [hr1, hr2, hr3, Bind.bind, Except.bind, Pure.pure, Except.pure,
        min_def, max_def]
    · rw [SampleGroup.max_rate, hsam]
      norm_num [hr1, hr2, hr3, Bind.bind, Except.bind, Pure.pure, Except.pure,
        min_def, max_def]
    · rw [SampleGroup.std_dev, hvar]
      norm_num [Except.map]
    · rw [abs_sub_lt_iff]
      constructor <;> linarith

/-- C7 witness: the single-sample part of C7 at a concrete group. -/
theorem C7_std_dev_population_witness :
    (addAll [⟨10, 1, 0, 1⟩]).std_dev = .ok 0 :=
  C7_std_dev_population.1 (addAll [⟨10, 1, 0, 1⟩]) ⟨10, 1, 0, 1⟩ 10
    (by rw [addAll, foldl_add_samples]; rfl)
    (by norm_num [Sample.rate, Sample.duration, pyDiv])

theorem handle_message_eq (h : Handler) (now : ℚ) :
    h.handle_message now =
      { counter := h.counter + 1,
        message_size := h.message_size,
        num_msgs := h.num_msgs,
        timeout := some (now + 3 / 5),
        start := if h.start = none then some now else h.start,
        end_ := if h.timeout = none then h.end_ else some now } := by
  rcases h with ⟨c, sz, nm, tmo, st, en⟩
  cases tmo <;> cases st <;> simp [Handler.handle_message]

theorem procMsgs_armed (ms : List ℚ) :
    ∀ (h : Handler) (τ σ : ℚ), h.timeout = some τ → h.start = some σ →
      (procMsgs h ms).counter = h.counter + ms.length ∧
      (procMsgs h ms).message_size = h.message_size ∧
      (procMsgs h ms).num_msgs = h.num_msgs ∧
      (procMsgs h ms).start = some σ ∧
      (procMsgs h ms).timeout =
        (match ms.getLast? with
          | none => some τ
          | some t => some (t + 3 / 5)) ∧
      (procMsgs h ms).end_ =
        (match ms.getLast? with
          | none => h.end_
          | some t => some t) := by
  induction ms with
  | nil =>
    intro h τ σ hto hst
    exact ⟨by simp [procMsgs], rfl, rfl, hst, by simp [procMsgs, hto],
      by simp [procMsgs]⟩
  | cons t ms ih =>
    intro h τ σ hto hst
    have hstep : procMsgs h (t :: ms) = procMsgs (h.handle_message t) ms := rfl
    have hne : ¬ h.start = none := by simp [hst]
    have hne2 : ¬ h.timeout = none := by simp [hto]
    have hh : h.handle_message t =
        { counter := h.counter + 1, message_size := h.message_size,
          num_msgs := h.num_msgs, timeout := some (t + 3 / 5),
          start := h.start, end_ := some t } := by
      rw [handle_message_eq]
      simp [hne, hne2]
    obtain ⟨hc, hsz, hnm, hs, htO, hE⟩ :=
      ih (h.handle_message t) (t + 3 / 5) σ (by rw [hh]) (by rw [hh]; exact hst)
    rw [hstep]
    refine ⟨?_, ?_, ?_, hs, ?_, ?_⟩
    · rw [hc, hh]; simp; ring
    · rw [hsz, hh]
    · rw [hnm, hh]
    · rw [htO]
      cases ms with
      | nil => simp
      | cons m ms2 =>
        rw [List.getLast?_cons_cons]
        cases hg : (m :: ms2).getLast? with
        | none => exact absurd (List.getLast?_eq_none_iff.mp hg) (by simp)
        | some t2 => rfl
    · rw [hE, hh]
      cases ms with
      | nil => simp
      | cons m ms2 =>
        rw [List.getLast?_cons_cons]
        cases hg : (m :: ms2).getLast? with
        | none => exact absurd (List.getLast?_eq_none_iff.mp hg) (by simp)
        | some t2 => rfl

theorem procMsgs_init_spec (sz nm : ℤ) (m : ℚ) (ms : List ℚ) :
    (procMsgs (Handler.init sz nm) (m :: ms)).counter = (m :: ms).length ∧
    (procMsgs (Handler.init sz nm) (m :: ms)).message_size = sz ∧
    (procMsgs (Handler.init sz nm) (m :: ms)).num_msgs = nm ∧
    (procMsgs (Handler.init sz nm) (m :: ms)).start = some m ∧
    (procMsgs (Handler.init sz nm) (m :: ms)).timeout =
      some ((match ms.getLast? with | none => m | some t => t) + 3 / 5) ∧
    (procMsgs (Handler.init sz nm) (m :: ms)).end_ = ms.getLast? := by
  have hstep : procMsgs (Handler.init sz nm) (m :: ms) =
      procMsgs ((Handler.init sz nm).handle_message m) ms := rfl
  have hh : (Handler.init sz nm).handle_message m =
      ⟨1, sz, nm, some (m + 3 / 5), some m, none⟩ := by
    rw [handle_message_eq]
    simp [Handler.init]
  obtain ⟨hc, hsz, hnm, hs, hto, hE⟩ :=
    procMsgs_armed ms ((Handler.init sz nm).handle_message m) (m + 3 / 5) m
      (by rw [hh]) (by rw [hh])
  rw [hstep]
  refine ⟨?_, ?_, ?_, hs, ?_, ?_⟩
  · rw [hc, hh]; simp [add_comm]
  · rw [hsz, hh]
  · rw [hnm, hh]
  · rw [hto]
    cases ms with
    | nil => simp
    | cons m2 ms2 =>
      cases hg : (m2 :: ms2).getLast? with
      | none => exact absurd (List.getLast?_eq_none_iff.mp hg) (by simp)
      | some t2 => rfl
  · rw [hE, hh]
    cases ms with
    | nil => simp
    | cons m2 ms2 =>
      cases hg : (m2 :: ms2).getLast? with
      | none => rfl
      | some t2 => rfl

theorem procMsgs_init_nil (sz nm : ℤ) :
    procMsgs (Handler.init sz nm) [] = Handler.init sz nm := rfl

theorem pollFires_none (h : Handler) (t : ℚ) (hto : h.timeout = none) :
    h.pollFires t = false := by
  simp [Handler.pollFires, hto]

theorem pollFires_true_iff (h : Handler) (time τ : ℚ)
    (hto : h.timeout = some τ) :
    h.pollFires time = true ↔ (τ ≠ 0 ∧ τ ≤ time) := by
  simp only [Handler.pollFires, hto]
  split_ifs with h1
  · simp [h1]
  · simp [h1]

theorem msgsOf_nil : msgsOf [] = [] := rfl

theorem pollsOf_nil : pollsOf [] = [] := rfl

theorem msgsOf_cons_msg (t : ℚ) (L : List Event) :
    msgsOf (Event.msg t :: L) = t :: msgsOf L := rfl

theorem msgsOf_cons_poll (t : ℚ) (L : List Event) :
    msgsOf (Event.poll t :: L) = msgsOf L := rfl

theorem pollsOf_cons_msg (t : ℚ) (L : List Event) :
    pollsOf (Event.msg t :: L) = pollsOf L := rfl

theorem pollsOf_cons_poll (t : ℚ) (L : List Event) :
    pollsOf (Event.poll t :: L) = t :: pollsOf L := rfl

theorem msgsOf_append (L1 L2 : List Event) :
    msgsOf (L1 ++ L2) = msgsOf L1 ++ msgsOf L2 := by
  simp [msgsOf, List.filterMap_append]

theorem pollsOf_append (L1 L2 : List Event) :
    pollsOf (L1 ++ L2) = pollsOf L1 ++ pollsOf L2 := by
  simp [pollsOf, List.filterMap_append]

theorem mem_msgsOf (x : ℚ) (L : List Event) :
    x ∈ msgsOf L ↔ Event.msg x ∈ L := by
  induction L with
  | nil => simp [msgsOf]
  | cons e rest ih =>
    cases e with
    | msg t => simp [msgsOf_cons_msg, ih]
    | poll t => simp [msgsOf_cons_poll, ih]

theorem mem_pollsOf (x : ℚ) (L : List Event) :
    x ∈ pollsOf L ↔ Event.poll x ∈ L := by
  induction L with
  | nil => simp [pollsOf]
  | cons e rest ih =>
    cases e with
    | msg t => simp [pollsOf_cons_msg, ih]
    | poll t => simp [pollsOf_cons_poll, ih]

theorem pairwise_msgsOf (L : List Event)
    (hp : List.Pairwise (fun a b => a.time ≤ b.time) L) :
    List.Pairwise (· ≤ ·) (msgsOf L) := by
  induction L with
  | nil => simp [msgsOf]
  | cons e rest ih =>
    rw [List.pairwise_cons] at hp
    obtain ⟨he, hrest⟩ := hp
    cases e with
    | msg t =>
      rw [msgsOf_cons_msg, List.pairwise_cons]
      refine ⟨?_, ih hrest⟩
      intro x hx
      have := he (Event.msg x) ((mem_msgsOf x rest).mp hx)
      simpa [Event.time] using this
    | poll t =>
      rw [msgsOf_cons_poll]
      exact ih hrest

theorem pairwise_le_getLast (l : List ℚ) (hp : List.Pairwise (· ≤ ·) l) :
    ∀ (x : ℚ), x ∈ l → ∀ hne : l ≠ [], x ≤ l.getLast hne := by
  induction l with
  | nil => intro x hx; simp at hx
  | cons a l ih =>
    rw [List.pairwise_cons] at hp
    obtain ⟨ha, hl⟩ := hp
    intro x hx hne
    cases l with
    | nil =>
      simp at hx
      simp [hx, List.getLast]
    | cons b l2 =>
      rw [List.getLast_cons (by simp)]
      rcases List.mem_cons.mp hx with rfl | hx2
      · exact le_trans (ha b (by simp)) (ih hl b (by simp) (by simp))
      · exact ih hl x hx2 (by simp)

theorem runEvents_none_procMsgs (L : List Event) :
    ∀ h : Handler, (runEvents h L).2 = none →
      runEvents h L = (procMsgs h (msgsOf L), none) := by
  induction L with
  | nil => intro h _; rfl
  | cons e rest ih =>
    intro h hnone
    cases e with
    | msg t =>
      have hstep : runEvents h (Event.msg t :: rest) =
          runEvents (h.handle_message t) rest := rfl
      rw [hstep] at hnone ⊢
      rw [ih _ hnone, msgsOf_cons_msg]
      rfl
    | poll t =>
      by_cases hfire : h.pollFires t
      · exfalso
        have : runEvents h (Event.poll t :: rest) = (h, some t) := by
          simp [runEvents, hfire]
        rw [this] at hnone
        simp at hnone
      · have hstep : runEvents h (Event.poll t :: rest) =
            runEvents h rest := by simp [runEvents, hfire]
        rw [hstep] at hnone ⊢
        rw [ih _ hnone, msgsOf_cons_poll]

theorem runEvents_fire_split (L : List Event) :
    ∀ (h hF : Handler) (f : ℚ), runEvents h L = (hF, some f) →
      ∃ L1 L2, L = L1 ++ Event.poll f :: L2 ∧
        (runEvents h L1).2 = none ∧
        hF = procMsgs h (msgsOf L1) ∧
        (procMsgs h (msgsOf L1)).pollFires f = true := by
  induction L with
  | nil =>
    intro h hF f hrun
    simp [runEvents] at hrun
  | cons e rest ih =>
    intro h hF f hrun
    cases e with
    | msg t =>
      have hstep : runEvents h (Event.msg t :: rest) =
          runEvents (h.handle_message t) rest := rfl
      rw [hstep] at hrun
      obtain ⟨L1, L2, hsplit, hnone, hhF, hfire⟩ := ih _ _ _ hrun
      refine ⟨Event.msg t :: L1, L2, by rw [hsplit]; rfl, ?_, ?_, ?_⟩
      · show (runEvents (h.handle_message t) L1).2 = none
        exact hnone
      · rw [hhF, msgsOf_cons_msg]
        rfl
      · rw [msgsOf_cons_msg]
        exact hfire
    | poll t =>
      by_cases hfire : h.pollFires t
      · have hstep : runEvents h (Event.poll t :: rest) = (h, some t) := by
          simp [runEvents, hfire]
        rw [hstep] at hrun
        have hf : t = f := by
          have h2 := congrArg Prod.snd hrun
          simpa using h2
        have hh : hF = h := by
          have h2 := congrArg Prod.fst hrun
          simpa using h2.symm
        subst hf
        subst hh
        exact ⟨[], rest, rfl, rfl, rfl, hfire⟩
      · have hstep : runEvents h (Event.poll t :: rest) =
            runEvents h rest := by simp [runEvents, hfire]
        rw [hstep] at hrun
        obtain ⟨L1, L2, hsplit, hnone, hhF, hfire2⟩ := ih _ _ _ hrun
        refine ⟨Event.poll t :: L1, L2, by rw [hsplit]; rfl, ?_, ?_, ?_⟩
        · show (runEvents h (Event.poll t :: L1)).2 = none
          simp [runEvents, hfire]
          exact hnone
        · rw [hhF, msgsOf_cons_poll]
        · rw [msgsOf_cons_poll]
          exact hfire2

theorem runEvents_none_split (L : List Event) :
    ∀ h : Handler, (runEvents h L).2 = none →
      ∀ (L1 : List Event) (p : ℚ) (L2 : List Event),
        L = L1 ++ Event.poll p :: L2 →
        (procMsgs h (msgsOf L1)).pollFires p = false := by
  induction L with
  | nil =>
    intro h _ L1 p L2 hsplit
    exact absurd hsplit (by simp)
  | cons e rest ih =>
    intro h hnone L1 p L2 hsplit
    cases L1 with
    | nil =>
      simp at hsplit
      obtain ⟨he, hrest⟩ := hsplit
      subst he
      by_cases hfire : h.pollFires p
      · exfalso
        have : runEvents h (Event.poll p :: rest) = (h, some p) := by
          simp [runEvents, hfire]
        rw [this] at hnone
        simp at hnone
      · simpa [procMsgs] using hfire
    | cons e1 L1t =>
      simp at hsplit
      obtain ⟨he, hrest⟩ := hsplit
      subst he
      cases e with
      | msg t =>
        have hstep : runEvents h (Event.msg t :: rest) =
            runEvents (h.handle_message t) rest := rfl
        rw [hstep] at hnone
        have := ih _ hnone L1t p L2 hrest
        rw [msgsOf_cons_msg]
        exact this
      | poll t =>
        by_cases hfire : h.pollFires t
        · exfalso
          have : runEvents h (Event.poll t :: rest) = (h, some t) := by
            simp [runEvents, hfire]
          rw [this] at hnone
          simp at hnone
        · have hstep : runEvents h (Event.poll t :: rest) =
              runEvents h rest := by simp [runEvents, hfire]
          rw [hstep] at hnone
          have := ih _ hnone L1t p L2 hrest
          rw [msgsOf_cons_poll]
          exact this

theorem getLast?_cons_match (m : ℚ) (ms : List ℚ) :
    (m :: ms).getLast? =
      some (match ms.getLast? with | none => m | some t => t) := by
  cases ms with
  | nil => rfl
  | cons b l =>
    rw [List.getLast?_cons_cons]
    cases hg : (b :: l).getLast? with
    | none => exact absurd (List.getLast?_eq_none_iff.mp hg) (by simp)
    | some t => rfl

theorem pairwise_le_getLast? (l : List ℚ) (hp : List.Pairwise (· ≤ ·) l)
    (t : ℚ) (ht : l.getLast? = some t) : ∀ x ∈ l, x ≤ t := by
  have hne : l ≠ [] := by
    intro h
    rw [h] at ht
    simp at ht
  have hgl : l.getLast hne = t := by
    have h2 := List.getLast?_eq_getLast l hne
    rw [h2] at ht
    exact Option.some_inj.mp ht
  intro x hx
  rw [← hgl]
  exact pairwise_le_getLast l hp x hx hne

theorem getLast?_mem_of_eq (l : List ℚ) (t : ℚ) (ht : l.getLast? = some t) :
    t ∈ l := by
  have hne : l ≠ [] := by
    intro h
    rw [h] at ht
    simp at ht
  have h2 := List.getLast?_eq_getLast l hne
  rw [h2] at ht
  rw [← Option.some_inj.mp ht]
  exact List.getLast_mem hne

/-- If a run starting from a fresh handler never fires, then no poll wakeup
in the schedule lies at or beyond the rolling deadline lastMessage + 0.6
(all message times being nonnegative keeps the deadline truthy). -/
theorem noFire_poll_bound (L : List Event) (sz nm : ℤ) (p tl : ℚ)
    (hsort : List.Pairwise (fun a b => a.time ≤ b.time) L)
    (hpos : ∀ m ∈ msgsOf L, 0 ≤ m)
    (hnone : (runEvents (Handler.init sz nm) L).2 = none)
    (hpoll : Event.poll p ∈ L)
    (htl : (msgsOf L).getLast? = some tl) :
    ¬ (tl + 3 / 5 ≤ p) := by
  intro hle
  obtain ⟨A, B, hAB⟩ := List.append_of_mem hpoll
  have hB : ∀ e ∈ B, p ≤ e.time := by
    rw [hAB, List.pairwise_append] at hsort
    obtain ⟨_, hsort2, _⟩ := hsort
    rw [List.pairwise_cons] at hsort2
    intro e he
    exact hsort2.1 e he
  have htl_max : ∀ x ∈ msgsOf L, x ≤ tl :=
    pairwise_le_getLast? (msgsOf L) (pairwise_msgsOf L hsort) tl htl
  have hBmsg : msgsOf B = [] := by
    by_contra hBne
    obtain ⟨x, hx⟩ := List.exists_mem_of_ne_nil _ hBne
    have h1 : p ≤ x := by
      have h2 := hB (Event.msg x) ((mem_msgsOf x B).mp hx)
      simpa [Event.time] using h2
    have h2 : x ∈ msgsOf L := by
      rw [hAB, msgsOf_append, msgsOf_cons_poll]
      exact List.mem_append.mpr (Or.inr hx)
    have h3 : x ≤ tl := htl_max x h2
    linarith
  have hAmsg : msgsOf A = msgsOf L := by
    rw [hAB, msgsOf_append, msgsOf_cons_poll, hBmsg, List.append_nil]
  have hnofire := runEvents_none_split L _ hnone A p B hAB
  have hAne : msgsOf A ≠ [] := by
    rw [hAmsg]
    intro h
    rw [h] at htl
    simp at htl
  obtain ⟨m, ms, hms⟩ := List.exists_cons_of_ne_nil hAne
  obtain ⟨_, _, _, _, hto, _⟩ := procMsgs_init_spec sz nm m ms
  have hmatch : (m :: ms).getLast? =
      some (match ms.getLast? with | none => m | some t => t) :=
    getLast?_cons_match m ms
  have htl2 : (match ms.getLast? with | none => m | some t => t) = tl := by
    rw [← hms, hAmsg, htl] at hmatch
    exact (Option.some_inj.mp hmatch).symm
  have htimeout : (procMsgs (Handler.init sz nm) (msgsOf A)).timeout =
      some (tl + 3 / 5) := by
    rw [hms, hto, htl2]
  have htl_pos : 0 ≤ tl :=
    hpos tl (getLast?_mem_of_eq (msgsOf L) tl htl)
  have hfires : (procMsgs (Handler.init sz nm) (msgsOf A)).pollFires p =
      true := by
    rw [pollFires_true_iff _ _ _ htimeout]
    exact ⟨ne_of_gt (by linarith), hle⟩
  rw [hnofire] at hfires
  exact Bool.false_ne_true hfires

theorem pollGrid_length (p0 : ℚ) (K : ℕ) : (pollGrid p0 K).length = K := by
  simp [pollGrid]

theorem pollGrid_take (p0 : ℚ) (K j : ℕ) (hj : j ≤ K) :
    (pollGrid p0 K).take j = pollGrid p0 j := by
  rw [pollGrid, pollGrid, ← List.map_take, List.take_range, min_eq_left hj]

theorem pollGrid_get? (p0 : ℚ) (K j : ℕ) (hj : j < K) :
    (pollGrid p0 K).get? j = some (p0 + j / 5) := by
  rw [pollGrid, List.get?_map, List.get?_range hj]
  rfl

theorem mem_pollGrid (p0 : ℚ) (K i : ℕ) (hi : i < K) :
    p0 + i / 5 ∈ pollGrid p0 K := by
  rw [pollGrid]
  exact List.mem_map.mpr ⟨i, List.mem_range.mpr hi, rfl⟩

theorem pollGrid_split (p0 : ℚ) (K : ℕ) (A : List ℚ) (f : ℚ) (B : List ℚ)
    (h : pollGrid p0 K = A ++ f :: B) :
    A = pollGrid p0 A.length ∧ f = p0 + A.length / 5 ∧ A.length < K := by
  have hlen : K = A.length + (B.length + 1) := by
    have h2 := congrArg List.length h
    rw [pollGrid_length] at h2
    simpa [Nat.add_comm, Nat.add_assoc] using h2
  have hlt : A.length < K := by omega
  have hA : A = (pollGrid p0 K).take A.length := by
    rw [h, List.take_left]
  have hget : (pollGrid p0 K).get? A.length = some f := by
    rw [h, List.get?_append_right (le_refl _)]
    simp
  rw [pollGrid_get? p0 K A.length hlt] at hget
  refine ⟨?_, (Option.some_inj.mp hget).symm, hlt⟩
  conv_lhs => rw [hA]
  rw [pollGrid_take p0 K A.length (le_of_lt hlt)]

theorem runEvents_num_msgs (L : List Event) :
    ∀ (h : Handler) (nm : ℤ),
      runEvents { h with num_msgs := nm } L =
        ({ (runEvents h L).1 with num_msgs := nm }, (runEvents h L).2) := by
  induction L with
  | nil => intro h nm; rfl
  | cons e rest ih =>
    intro h nm
    cases e with
    | msg t =>
      have hmsg : Handler.handle_message { h with num_msgs := nm } t =
          { h.handle_message t with num_msgs := nm } := by
        rw [handle_message_eq, handle_message_eq]
      show runEvents (Handler.handle_message { h with num_msgs := nm } t)
          rest = _
      rw [hmsg, ih]
      rfl
    | poll t =>
      have hfires : Handler.pollFires { h with num_msgs := nm } t =
          h.pollFires t := rfl
      by_cases hf : h.pollFires t
      · simp [runEvents, hfires, hf]
      · simp [runEvents, hfires, hf, ih h nm]

/-- C4 counterexample: a subscriber that receives exactly one message (at
time 1) and then reaches DONE (poll at 1.6 = 8/5) finalises
Sample(1, 128, 1, None): self.end is still None because handle_message only
sets end from the second message on, so the emitted end is not the arrival
time of the last message as the claim states. -/
theorem C4_single_message_end_none_cex :
    (runEvents (Handler.init 128 100) [Event.msg 1, Event.poll (8 / 5)]).2 =
        some (8 / 5) ∧
    (runEvents (Handler.init 128 100)
        [Event.msg 1, Event.poll (8 / 5)]).1.emit = ⟨1, 128, some 1, none⟩ ∧
    (runEvents (Handler.init 128 100)
        [Event.msg 1, Event.poll (8 / 5)]).1.emit ≠ ⟨1, 128, some 1, some 1⟩ := by
  norm_num [runEvents, Handler.handle_message, Handler.pollFires,
    Handler.init, Handler.emit, Option.some_ne_none]
  exact fun h => Option.noConfusion h

/-- C4 amended: every run that reaches DONE at poll time f finalises
Sample(counter, message_size, start, end) with counter the number of
messages received, start the arrival time of the first message, and end the
arrival time of the last message when at least two messages were received,
but None when exactly one was (ms.getLast? below); the sample is routed by
Benchmark.add_sample under role subscribe into the subscribe group. -/
theorem C4_done_sample_fields (L : List Event) (sz nm : ℤ) (hF : Handler)
    (f : ℚ) (hrun : runEvents (Handler.init sz nm) L = (hF, some f)) :
    (∃ L1 L2, L = L1 ++ Event.poll f :: L2 ∧
      ∃ m ms, msgsOf L1 = m :: ms ∧
        hF.emit = ⟨(m :: ms).length, sz, some m, ms.getLast?⟩) ∧
    (∀ (b : Benchmark) (s : Sample),
      (b.add_sample "subscribe" s).subscribe.samples =
          b.subscribe.samples ++ [s] ∧
      (b.add_sample "subscribe" s).publish = b.publish) := by
  constructor
  · obtain ⟨L1, L2, hsplit, hnone, hhF, hfire⟩ :=
      runEvents_fire_split L _ _ _ hrun
    have hne : msgsOf L1 ≠ [] := by
      intro h0
      rw [h0] at hfire
      rw [pollFires_none _ _ rfl] at hfire
      exact Bool.false_ne_true hfire
    obtain ⟨m, ms, hms⟩ := List.exists_cons_of_ne_nil hne
    obtain ⟨hc, hsz, hnm, hs, hto, hE⟩ := procMsgs_init_spec sz nm m ms
    refine ⟨L1, L2, hsplit, m, ms, hms, ?_⟩
    rw [hhF, hms]
    simp [Handler.emit, hc, hsz, hs, hE]
  · intro b s
    constructor
    · simp [Benchmark.add_sample, add_sample_samples]
    · simp [Benchmark.add_sample]

/-- C4 witness: the amended statement at the concrete two-message run
msg at 1, msg at 2, poll at 3. -/
theorem C4_done_sample_fields_witness :
    (∃ L1 L2, ([Event.msg 1, Event.msg 2, Event.poll 3] : List Event) =
        L1 ++ Event.poll 3 :: L2 ∧
      ∃ m ms, msgsOf L1 = m :: ms ∧
        Handler.emit ⟨2, 128, 100, some (13 / 5), some 1, some 2⟩ =
          ⟨(m :: ms).length, 128, some m, ms.getLast?⟩) ∧
    (∀ (b : Benchmark) (s : Sample),
      (b.add_sample "subscribe" s).subscribe.samples =
          b.subscribe.samples ++ [s] ∧
      (b.add_sample "subscribe" s).publish = b.publish) :=
  C4_done_sample_fields [Event.msg 1, Event.msg 2, Event.poll 3] 128 100
    ⟨2, 128, 100, some (13 / 5), some 1, some 2⟩ 3
    (by norm_num [runEvents, Handler.handle_message, Handler.pollFires,
      Handler.init, Option.some_ne_none])

/-- C10: the num_msgs argument of run_subscribe is stored but never read:
two runs over the same schedule that differ only in num_msgs emit the same
Sample constructor arguments and complete at the same time. -/
theorem C10_num_msgs_irrelevant (L : List Event) (sz nm1 nm2 : ℤ) :
    (runEvents (Handler.init sz nm1) L).1.emit =
        (runEvents (Handler.init sz nm2) L).1.emit ∧
    (runEvents (Handler.init sz nm1) L).2 =
        (runEvents (Handler.init sz nm2) L).2 := by
  have h1 : Handler.init sz nm1 =
      { Handler.init sz nm2 with num_msgs := nm1 } := rfl
  rw [h1, runEvents_num_msgs]
  exact ⟨rfl, rfl⟩

/-- C8: over a sorted schedule whose poll wakeups form the 0.2-spaced grid
from p0 (the poll task starts no later than the first message, clock times
nonnegative): (existence) if the grid reaches 0.6 past the last message the
run fires; (window) whenever the run fires at f, the final timeout is
tl + 0.6 for the last received message time tl, and tl + 0.6 <= f <=
tl + 0.8; (scenario C) five messages spaced 0.1 apart starting at 0.01 with
polls at 0, 0.2, ..., 1.2 give counter 5, start 0.01, end 0.41, and DONE at
1.2, inside [1.01, 1.21]. -/
theorem C8_idle_timeout_window (L : List Event) (K : ℕ) (p0 : ℚ) (sz nm : ℤ)
    (hsort : List.Pairwise (fun a b => a.time ≤ b.time) L)
    (hpolls : pollsOf L = pollGrid p0 K)
    (hp0 : 0 ≤ p0)
    (hfirst : ∀ m ∈ msgsOf L, p0 ≤ m) :
    ((msgsOf L ≠ [] ∧ 1 ≤ K ∧
        ∀ m ∈ msgsOf L, m + 3 / 5 ≤ p0 + ((K - 1 : ℕ) : ℚ) / 5) →
      ∃ (hF : Handler) (f : ℚ),
        runEvents (Handler.init sz nm) L = (hF, some f)) ∧
    (∀ (hF : Handler) (f : ℚ),
      runEvents (Handler.init sz nm) L = (hF, some f) →
      ∃ tl, hF.timeout = some (tl + 3 / 5) ∧ tl ∈ msgsOf L ∧
        tl + 3 / 5 ≤ f ∧ f ≤ tl + 4 / 5) ∧
    runEvents (Handler.init sz nm)
        [Event.poll 0, Event.msg (1 / 100), Event.msg (11 / 100),
          Event.poll (1 / 5), Event.msg (21 / 100), Event.msg (31 / 100),
          Event.poll (2 / 5), Event.msg (41 / 100), Event.poll (3 / 5),
          Event.poll (4 / 5), Event.poll 1, Event.poll (6 / 5)] =
      (⟨5, sz, nm, some (101 / 100), some (1 / 100), some (41 / 100)⟩,
        some (6 / 5)) := by
  have hpos : ∀ m ∈ msgsOf L, 0 ≤ m := fun m hm => le_trans hp0 (hfirst m hm)
  refine ⟨?_, ?_, ?_⟩
  · rintro ⟨hne, hK, hcov⟩
    rcases hrr : runEvents (Handler.init sz nm) L with ⟨hF, o⟩
    cases o with
    | some f => exact ⟨hF, f, rfl⟩
    | none =>
      exfalso
      have hnone : (runEvents (Handler.init sz nm) L).2 = none := by
        rw [hrr]
      obtain ⟨m, ms, hms⟩ := List.exists_cons_of_ne_nil hne
      have htl : (msgsOf L).getLast? =
          some (match ms.getLast? with | none => m | some t => t) := by
        rw [hms]
        exact getLast?_cons_match m ms
      have hp : Event.poll (p0 + ((K - 1 : ℕ) : ℚ) / 5) ∈ L := by
        rw [← mem_pollsOf, hpolls]
        exact mem_pollGrid p0 K (K - 1) (by omega)
      have hbound := noFire_poll_bound L sz nm _ _ hsort hpos hnone hp htl
      exact hbound (hcov _ (getLast?_mem_of_eq _ _ htl))
  · intro hF f hrun
    obtain ⟨L1, L2, hsplit, hnone1, hhF, hfireP⟩ :=
      runEvents_fire_split L _ _ _ hrun
    have hne1 : msgsOf L1 ≠ [] := by
      intro h0
      rw [h0] at hfireP
      rw [pollFires_none _ _ rfl] at hfireP
      exact Bool.false_ne_true hfireP
    obtain ⟨m, ms, hms⟩ := List.exists_cons_of_ne_nil hne1
    obtain ⟨hc, hsz2, hnm2, hs, hto, hE⟩ := procMsgs_init_spec sz nm m ms
    obtain ⟨tl, htl1⟩ : ∃ tl, (msgsOf L1).getLast? = some tl :=
      ⟨_, by rw [hms]; exact getLast?_cons_match m ms⟩
    have htl2 : (match ms.getLast? with | none => m | some t => t) = tl := by
      have h2 : (msgsOf L1).getLast? =
          some (match ms.getLast? with | none => m | some t => t) := by
        rw [hms]
        exact getLast?_cons_match m ms
      rw [htl1] at h2
      exact (Option.some_inj.mp h2).symm
    have htimeoutX : (procMsgs (Handler.init sz nm) (msgsOf L1)).timeout =
        some (tl + 3 / 5) := by
      rw [hms, hto, htl2]
    have hmemL1 : tl ∈ msgsOf L1 := getLast?_mem_of_eq _ _ htl1
    have hmemL : tl ∈ msgsOf L := by
      rw [hsplit, msgsOf_append, msgsOf_cons_poll]
      exact List.mem_append.mpr (Or.inl hmemL1)
    have hlow := ((pollFires_true_iff _ f _ htimeoutX).mp hfireP).2
    refine ⟨tl, by rw [hhF]; exact htimeoutX, hmemL, hlow, ?_⟩
    by_contra h4
    push_neg at h4
    have hgrideq : pollGrid p0 K = pollsOf L1 ++ f :: pollsOf L2 := by
      rw [← hpolls, hsplit, pollsOf_append, pollsOf_cons_poll]
    obtain ⟨hA, hf, hlt⟩ :=
      pollGrid_split p0 K (pollsOf L1) f (pollsOf L2) hgrideq
    cases hj : (pollsOf L1).length with
    | zero =>
      rw [hj] at hf
      have hple : p0 ≤ tl := hfirst tl hmemL
      have hf0 : f = p0 := by rw [hf]; norm_num
      linarith
    | succ jj =>
      have hpmem : p0 + (jj : ℚ) / 5 ∈ pollsOf L1 := by
        rw [hA, hj]
        exact mem_pollGrid p0 (jj + 1) jj (Nat.lt_succ_self jj)
      have hpeL1 : Event.poll (p0 + (jj : ℚ) / 5) ∈ L1 :=
        (mem_pollsOf _ L1).mp hpmem
      have hsub : List.Sublist L1 L := by
        rw [hsplit]
        exact List.sublist_append_left L1 _
      have hsort1 : List.Pairwise (fun a b => a.time ≤ b.time) L1 :=
        hsort.sublist hsub
      have hpos1 : ∀ x ∈ msgsOf L1, 0 ≤ x := by
        intro x hx
        apply hpos
        rw [hsplit, msgsOf_append, msgsOf_cons_poll]
        exact List.mem_append.mpr (Or.inl hx)
      have hkey := noFire_poll_bound L1 sz nm (p0 + (jj : ℚ) / 5) tl hsort1
        hpos1 hnone1 hpeL1 htl1
      apply hkey
      have hfv : f = p0 + (jj : ℚ) / 5 + 1 / 5 := by
        rw [hf, hj]
        push_cast
        ring
      linarith
  · norm_num [runEvents, Handler.handle_message, Handler.pollFires,
      Handler.init, Option.some_ne_none]

/-- C8 witness: the existence half of C8 at the scenario-C schedule. -/
theorem C8_idle_timeout_window_witness :
    ∃ (hF : Handler) (f : ℚ),
      runEvents (Handler.init 128 100)
          [Event.poll 0, Event.msg (1 / 100), Event.msg (11 / 100),
            Event.poll (1 / 5), Event.msg (21 / 100), Event.msg (31 / 100),
            Event.poll (2 / 5), Event.msg (41 / 100), Event.poll (3 / 5),
            Event.poll (4 / 5), Event.poll 1, Event.poll (6 / 5)] =
        (hF, some f) := by
  have hr : List.range 7 = [0, 1, 2, 3, 4, 5, 6] := by decide
  refine (C8_idle_timeout_window
      [Event.poll 0, Event.msg (1 / 100), Event.msg (11 / 100),
        Event.poll (1 / 5), Event.msg (21 / 100), Event.msg (31 / 100),
        Event.poll (2 / 5), Event.msg (41 / 100), Event.poll (3 / 5),
        Event.poll (4 / 5), Event.poll 1, Event.poll (6 / 5)] 7 0 128 100
      ?_ ?_ (by norm_num) ?_).1 ⟨?_, by norm_num, ?_⟩
  · norm_num [List.pairwise_cons, Event.time]
  · simp [pollsOf_cons_msg, pollsOf_cons_poll, pollsOf_nil, pollGrid, hr]
    try norm_num
  · simp [msgsOf_cons_msg, msgsOf_cons_poll, msgsOf_nil]
    try norm_num
  · simp [msgsOf_cons_msg, msgsOf_cons_poll, msgsOf_nil]
  · simp [msgsOf_cons_msg, msgsOf_cons_poll, msgsOf_nil]
    try norm_num

theorem intLogAux_spec (base n : ℕ) (hb : 2 ≤ base) :
    ∀ (fuel e : ℕ), base ^ e ≤ n → n < base ^ (e + fuel) →
      base ^ intLogAux base n fuel e ≤ n ∧
        n < base ^ (intLogAux base n fuel e + 1) := by
  intro fuel
  induction fuel with
  | zero =>
    intro e hle hlt
    rw [Nat.add_zero] at hlt
    exact absurd hle (not_le.mpr hlt)
  | succ fuel ih =>
    intro e hle hlt
    rw [intLogAux]
    split_ifs with h1
    · apply ih (e + 1) h1
      have h2 : e + 1 + fuel = e + (fuel + 1) := by omega
      rw [h2]
      exact hlt
    · exact ⟨hle, not_le.mp h1⟩

theorem intLog_spec (base n : ℕ) (hb : 2 ≤ base) (hn : 1 ≤ n) :
    base ^ intLog base n ≤ n ∧ n < base ^ (intLog base n + 1) := by
  have hcov : n < base ^ (0 + n) := by
    rw [Nat.zero_add]
    calc n < 2 ^ n := Nat.lt_two_pow n
      _ ≤ base ^ n := Nat.pow_le_pow_left hb n
  exact intLogAux_spec base n hb n 0 (by simpa using hn) hcov

theorem intLog_eq_of (base n e : ℕ) (hb : 2 ≤ base) (h1 : base ^ e ≤ n)
    (h2 : n < base ^ (e + 1)) : intLog base n = e := by
  have hn : 1 ≤ n := le_trans (Nat.one_le_pow e base (by omega)) h1
  obtain ⟨ha, hb2⟩ := intLog_spec base n hb hn
  rcases Nat.lt_trichotomy (intLog base n) e with hlt | heq | hgt
  · exfalso
    have h3 : intLog base n + 1 ≤ e := by omega
    have h4 : base ^ (intLog base n + 1) ≤ base ^ e :=
      Nat.pow_le_pow_right (by omega) h3
    omega
  · exact heq
  · exfalso
    have h3 : e + 1 ≤ intLog base n := by omega
    have h4 : base ^ (e + 1) ≤ base ^ intLog base n :=
      Nat.pow_le_pow_right (by omega) h3
    omega

/-- C9: the code bug at its failing inputs.  The selection rule the claim
(and spec) state for human_bytes, formalised by intLog, demands exponent 4
(unit T, "1024.00 TB") at 1024^5 - 1 and exponent 6 (unit E, "1024.00 EB")
at 1024^7 - 1, both inputs lying below base^7.  The program instead computes
exp = int(math.log(bytes_) / math.log(1024.0)); at these inputs the
double-precision quotient rounds up to exactly 5.0 and 7.0, so the program
prints "1.00 PB" (a scaled value below 1) and raises IndexError on pre[6]
respectively — the divergence recorded for this claim. -/
theorem C9_claimed_unit_at_failing_inputs :
    intLog 1024 (1024 ^ 5 - 1) = 4 ∧ intLog 1024 (1024 ^ 7 - 1) = 6 :=
  ⟨intLog_eq_of 1024 (1024 ^ 5 - 1) 4 (by norm_num) (by norm_num)
      (by norm_num),
    intLog_eq_of 1024 (1024 ^ 7 - 1) 6 (by norm_num) (by norm_num)
      (by norm_num)⟩

end AioStompBench
